import Mathlib

/-!
# Verification of the Ken Shenstone legacy extraction pipeline

Shallow embedding of the core algorithms of the repository:

* `split_pngs.py` — divider-row detection over per-row brightness statistics;
* `extract_chunks.py` / `process_chunks.py` — post-region segmentation,
  embedded-image extraction, content-signal detection;
* `fix_dates_v2.py` — Stage B ordered alignment of image-bearing posts
  against a descending list of known Facebook dates;
* `process_chunks.py` — checkpoint persistence (`save_progress` /
  `save_timeline`).

Pixel rows are modelled by their per-row statistics (mean brightness and
standard deviation as rationals, the per-call-site thresholds compared
exactly as in the source).  OpenCV contour detection and the md5 digest are
external library calls, modelled as pure function parameters; everything the
repository itself computes around them is embedded faithfully.
-/

namespace KenShenstone

/-! ## Calendar dates (`fix_dates_v2.py` works with `datetime` day arithmetic)

Dates are represented by their serial day number.  `daysFromCivil` is the
standard civil-calendar-to-day-count conversion (proleptic Gregorian), the
same function `datetime` arithmetic realises: subtracting a 14-day
`timedelta` is subtracting `14` from the serial day number. -/

/-- Serial day number of the civil date `y-m-d` (proleptic Gregorian,
epoch 1970-01-01 = 0).  Matches Python `datetime.toordinal` up to a constant
shift, so day differences agree with `timedelta` arithmetic. -/
def daysFromCivil (y m d : Int) : Int :=
  let y' : Int := if m ≤ 2 then y - 1 else y
  let era : Int := (if 0 ≤ y' then y' else y' - 399) / 400
  let yoe : Int := y' - era * 400
  let mp : Int := (m + 9) % 12
  let doy : Int := (153 * mp + 2) / 5 + d - 1
  let doe : Int := yoe * 365 + yoe / 4 - yoe / 100 + doy
  era * 146097 + doe - 719468

/-! ## Stage B ordered alignment (`fix_dates_v2.py`)

A post enters the alignment loop carrying only the date its OCR text yields
(`find_best_fb_date` parses the month-name pattern and checks
`2005 <= year <= 2025`; a post whose text yields no usable date carries
`none`).  The loop walks image-bearing posts in scroll order holding the
remaining (descending) known-date list. -/

/-- First index of the element of `l` minimising `|x - target|`
(`min(range(len(l)), key=lambda i: abs(l[i]-target))` — Python `min`
returns the first index attaining the minimum). -/
def argminAbs (target : Int) : List Int → Nat
  | [] => 0
  | [_] => 0
  | x :: y :: rest =>
      let j := argminAbs target (y :: rest)
      if (x - target).natAbs ≤ (((y :: rest).getD j 0) - target).natAbs then 0
      else j + 1

/-- Embedding of `find_best_fb_date` (fix_dates_v2.py lines 97–132): exact match in the
remaining list wins (first occurrence, as `list.index`); otherwise the
closest remaining date by absolute day difference; a post with no usable
parsed date takes index `0` (the newest remaining date). -/
def findBestFbDate (parsed : Option Int) (remaining : List Int) : Nat :=
  match parsed with
  | none => 0
  | some target =>
      match remaining.findIdx? (fun d => d = target) with
      | some i => i
      | none => argminAbs target remaining

/-- The assignment loop (fix_dates_v2.py lines 140–159).  `lastOpt` is the
date of the last entry of `assignments` (`none` iff no assignment yet).
When the remaining list is empty the post is extrapolated 14 days before
the last assignment (`continue` with no assignment if there is none);
otherwise the chosen date is consumed together with every newer remaining
date (`remaining[idx+1:]`). -/
def assignLoop : List (Option Int) → List Int → Option Int → List Int
  | [], _, _ => []
  | _ :: ps, [], none => assignLoop ps [] none
  | _ :: ps, [], some last => (last - 14) :: assignLoop ps [] (some (last - 14))
  | p :: ps, d :: ds, _ =>
      let idx := findBestFbDate p (d :: ds)
      let assigned := (d :: ds).getD idx 0
      assigned :: assignLoop ps ((d :: ds).drop (idx + 1)) (some assigned)

/-- Stage B entry point: walk the image-bearing posts in scroll order
against the full known-date list, no assignment made yet. -/
def assignDates (posts : List (Option Int)) (fbDates : List Int) : List Int :=
  assignLoop posts fbDates none

lemma argminAbs_lt_length (target : Int) :
    ∀ (l : List Int), l ≠ [] → argminAbs target l < l.length := by
  intro l
  induction l with
  | nil => intro h; exact absurd rfl h
  | cons x xs ih =>
      intro _
      cases xs with
      | nil => simp [argminAbs]
      | cons y rest =>
          simp only [argminAbs]
          split
          · simp
          · have := ih (by simp)
            simpa [Nat.succ_lt_succ_iff] using this

lemma findBestFbDate_lt_length (p : Option Int) (l : List Int) (hl : l ≠ []) :
    findBestFbDate p l < l.length := by
  cases p with
  | none =>
      simp only [findBestFbDate]
      exact List.length_pos.mpr hl
  | some target =>
      simp only [findBestFbDate]
      cases hidx : l.findIdx? (fun d => d = target) with
      | none => exact argminAbs_lt_length target l hl
      | some i =>
          exact List.findIdx?_eq_some_iff_findIdx_eq.mp hidx |>.1

/-- In a non-increasing list, every element after position `i` is at most
the element at position `i`. -/
lemma pairwise_ge_drop (r : List Int) (h : r.Pairwise (· ≥ ·)) (i : Nat)
    (hi : i < r.length) : ∀ d ∈ r.drop (i + 1), d ≤ r.getD i 0 := by
  induction r generalizing i with
  | nil => simp at hi
  | cons x xs ih =>
      cases i with
      | zero =>
          intro d hd
          simp only [List.drop_succ_cons, List.drop_zero] at hd
          exact (List.pairwise_cons.mp h).1 d hd
      | succ j =>
          intro d hd
          simp only [List.drop_succ_cons] at hd
          have hj : j < xs.length := by simpa using hi
          simpa using ih (List.pairwise_cons.mp h).2 j hj d hd

/-- Invariant of the assignment loop: if the remaining list is sorted
non-increasing and every remaining date is at most the last assigned date,
then the produced assignments are non-increasing and all of them are at
most the last assigned date. -/
lemma assignLoop_invariant (posts : List (Option Int)) :
    ∀ (remaining : List Int) (lastOpt : Option Int),
      remaining.Pairwise (· ≥ ·) →
      (∀ l, lastOpt = some l → ∀ d ∈ remaining, d ≤ l) →
      (assignLoop posts remaining lastOpt).Pairwise (· ≥ ·) ∧
        (∀ l, lastOpt = some l → ∀ a ∈ assignLoop posts remaining lastOpt, a ≤ l) := by
  induction posts with
  | nil => intro remaining lastOpt _ _; simp [assignLoop]
  | cons p ps ih =>
      intro remaining lastOpt hsorted hbound
      cases remaining with
      | nil =>
          cases lastOpt with
          | none =>
              simpa [assignLoop] using ih [] none (by simp) (by simp)
          | some last =>
              have hrec := ih [] (some (last - 14)) (by simp)
                (by intro l hl d hd; simp at hd)
              simp only [assignLoop]
              refine ⟨List.pairwise_cons.mpr ⟨?_, hrec.1⟩, ?_⟩
              · intro a ha
                have := hrec.2 (last - 14) rfl a ha
                omega
              · intro l hl a ha
                cases hl
                rcases List.mem_cons.mp ha with rfl | ha'
                · omega
                · have := hrec.2 (last - 14) rfl a ha'
                  omega
      | cons d ds =>
          set r := d :: ds with hr
          have hrne : r ≠ [] := by simp [hr]
          set idx := findBestFbDate p r with hidx
          have hlt : idx < r.length := findBestFbDate_lt_length p r hrne
          set assigned := r.getD idx 0 with hassigned
          have hmem : assigned ∈ r := by
            rw [hassigned, List.getD_eq_getElem r 0 hlt]
            exact List.getElem_mem hlt
          have hdrop_sorted : (r.drop (idx + 1)).Pairwise (· ≥ ·) :=
            hsorted.sublist (List.drop_sublist _ _)
          have hdrop_le : ∀ x ∈ r.drop (idx + 1), x ≤ assigned :=
            pairwise_ge_drop r hsorted idx hlt
          have hrec := ih (r.drop (idx + 1)) (some assigned) hdrop_sorted
            (by intro l hl x hx; cases hl; exact hdrop_le x hx)
          simp only [assignLoop]
          refine ⟨List.pairwise_cons.mpr ⟨?_, hrec.1⟩, ?_⟩
          · intro a ha
            exact hrec.2 assigned rfl a ha
          · intro l hl a ha
            cases hl
            rcases List.mem_cons.mp ha with rfl | ha'
            · exact hbound l rfl assigned hmem
            · exact le_trans (hrec.2 assigned rfl a ha') (hbound l rfl assigned hmem)

/-- C1: Stage B date alignment, over any sequence of image-bearing posts in
scroll order (each carrying the optional date parsed from its text) and any
known-date list sorted descending, produces assignments that are
monotonically non-increasing in scroll order: for all positions `i < j` in
the assignment sequence, `date_assigned[i] >= date_assigned[j]`, including
the assignments produced by the 14-day-per-post extrapolation after the
known-date list is exhausted. -/
theorem stageB_assignments_monotone (posts : List (Option Int)) (fb : List Int)
    (hfb : fb.Pairwise (· ≥ ·)) :
    ∀ (i j : Fin (assignDates posts fb).length), (i : ℕ) < (j : ℕ) →
      (assignDates posts fb).get j ≤ (assignDates posts fb).get i := by
  have h := (assignLoop_invariant posts fb none hfb (by simp)).1
  intro i j hij
  exact List.pairwise_iff_get.mp h i j hij

/-- Witness for `stageB_assignments_monotone` at a concrete input: four
posts (the second with a parsed date), known dates `[10, 3]`, so the run
exercises the exact/nearest consumption and the 14-day extrapolation. -/
theorem stageB_assignments_monotone_witness :
    (([10, 3] : List Int).Pairwise (· ≥ ·)) ∧
      (assignDates [none, some 5, none, none] [10, 3]).get ⟨3, by decide⟩ ≤
        (assignDates [none, some 5, none, none] [10, 3]).get ⟨0, by decide⟩ :=
  ⟨by decide,
    stageB_assignments_monotone [none, some 5, none, none] [10, 3] (by decide)
      ⟨0, by decide⟩ ⟨3, by decide⟩ (by decide)⟩

/-- C5: given 3 posts in scroll order with no text dates and the known-date
list `["2020-06-01", "2019-01-01"]`, Stage B assigns post 1 the date
2020-06-01, post 2 the date 2019-01-01, and post 3 the extrapolated date
2018-12-18 (14 days before the last assignment). -/
theorem stageB_three_post_scenario :
    assignDates [none, none, none]
        [daysFromCivil 2020 6 1, daysFromCivil 2019 1 1] =
      [daysFromCivil 2020 6 1, daysFromCivil 2019 1 1,
        daysFromCivil 2018 12 18] := by
  decide

/-! ## Divider detection (`split_pngs.py` `find_post_dividers`,
`process_chunks.py` `find_dividers_in_chunk`,
`extract_chunks.py` `find_post_regions` first half)

All three call sites run the same scan: walk rows `0..h-1`; a divider row
opens a gap (recording `gap_start`) or continues the current one; the first
non-divider row closes the current gap, which is emitted iff its height
reaches the minimum; a gap still open at the last row is closed at `h`.
Rows are characterised by their brightness statistics; the scan only looks
at the per-row boolean. -/

/-- The divider-run scan: `gapScanAux isDiv minH h n y st` processes rows
`y, y+1, …, y+n-1` (with `y + n = h` at the top-level call, mirroring
`for y in range(h)`), where `st` is `some gap_start` iff the scan is inside
a run (`in_gap`).  After the loop, a still-open run is emitted if
`h - gap_start` reaches the minimum. -/
def gapScanAux (isDiv : Nat → Bool) (minH h : Nat) :
    Nat → Nat → Option Nat → List (Nat × Nat)
  | 0, _, none => []
  | 0, _, some g => if minH ≤ h - g then [(g, h)] else []
  | n + 1, y, st =>
      if isDiv y then
        gapScanAux isDiv minH h n (y + 1) (some (st.getD y))
      else
        match st with
        | none => gapScanAux isDiv minH h n (y + 1) none
        | some g =>
            (if minH ≤ y - g then [(g, y)] else []) ++
              gapScanAux isDiv minH h n (y + 1) none

/-- The scan over a whole image of height `h`. -/
def gapScan (isDiv : Nat → Bool) (minH h : Nat) : List (Nat × Nat) :=
  gapScanAux isDiv minH h h 0 none

/-- A maximal contiguous run of divider rows inside `[0, h)` reaching the
minimum height, possibly touching the last row (`e = h`). -/
def FreshRun (isDiv : Nat → Bool) (minH h y s e : Nat) : Prop :=
  y ≤ s ∧ s < e ∧ e ≤ h ∧ minH ≤ e - s ∧
    (∀ z, s ≤ z → z < e → isDiv z = true) ∧
    (s = 0 ∨ isDiv (s - 1) = false) ∧ (e = h ∨ isDiv e = false)

/-- Continuation of a run already open at `gap_start = g` when the scan is
at row `y`: the run extends to `e`, is right-maximal, and reaches the
minimum height measured from `g`. -/
def ContRun (isDiv : Nat → Bool) (minH h g y e : Nat) : Prop :=
  y ≤ e ∧ e ≤ h ∧ minH ≤ e - g ∧
    (∀ z, y ≤ z → z < e → isDiv z = true) ∧ (e = h ∨ isDiv e = false)

/-- A gap of the Divider Detector: a maximal divider run of height at least
`minH` within the image. -/
def IsDividerRun (isDiv : Nat → Bool) (minH h s e : Nat) : Prop :=
  FreshRun isDiv minH h 0 s e

lemma gapScanAux_zero_none (isDiv : Nat → Bool) (minH h y : Nat) :
    gapScanAux isDiv minH h 0 y none = [] := rfl

lemma gapScanAux_zero_some (isDiv : Nat → Bool) (minH h y g : Nat) :
    gapScanAux isDiv minH h 0 y (some g) =
      if minH ≤ h - g then [(g, h)] else [] := rfl

lemma gapScanAux_succ_div_none (isDiv : Nat → Bool) (minH h n y : Nat)
    (hdiv : isDiv y = true) :
    gapScanAux isDiv minH h (n + 1) y none =
      gapScanAux isDiv minH h n (y + 1) (some y) := by
  simp [gapScanAux, hdiv]

lemma gapScanAux_succ_div_some (isDiv : Nat → Bool) (minH h n y g : Nat)
    (hdiv : isDiv y = true) :
    gapScanAux isDiv minH h (n + 1) y (some g) =
      gapScanAux isDiv minH h n (y + 1) (some g) := by
  simp [gapScanAux, hdiv]

lemma gapScanAux_succ_nondiv_none (isDiv : Nat → Bool) (minH h n y : Nat)
    (hdiv : isDiv y = false) :
    gapScanAux isDiv minH h (n + 1) y none =
      gapScanAux isDiv minH h n (y + 1) none := by
  simp [gapScanAux, hdiv]

lemma gapScanAux_succ_nondiv_some (isDiv : Nat → Bool) (minH h n y g : Nat)
    (hdiv : isDiv y = false) :
    gapScanAux isDiv minH h (n + 1) y (some g) =
      (if minH ≤ y - g then [(g, y)] else []) ++
        gapScanAux isDiv minH h n (y + 1) none := by
  simp [gapScanAux, hdiv]

lemma gapScanAux_mem (isDiv : Nat → Bool) (minH h : Nat) :
    ∀ (n : Nat), ∀ (y : Nat), y + n = h →
      ((y = 0 ∨ isDiv (y - 1) = false) →
        ∀ s e, ((s, e) ∈ gapScanAux isDiv minH h n y none ↔
          FreshRun isDiv minH h y s e)) ∧
      (∀ g, g < y → (∀ z, g ≤ z → z < y → isDiv z = true) →
        (g = 0 ∨ isDiv (g - 1) = false) →
        ∀ s e, ((s, e) ∈ gapScanAux isDiv minH h n y (some g) ↔
          ((s = g ∧ ContRun isDiv minH h g y e) ∨
            FreshRun isDiv minH h y s e))) := by
  intro n
  induction n with
  | zero =>
      intro y hy
      have hyh : y = h := by omega
      constructor
      · intro _ s e
        rw [gapScanAux_zero_none]
        simp only [List.not_mem_nil, false_iff]
        rintro ⟨h1, h2, h3, -⟩
        omega
      · intro g hg _ _ s e
        rw [gapScanAux_zero_some]
        by_cases hc : minH ≤ h - g
        · rw [if_pos hc]
          simp only [List.mem_singleton, Prod.mk.injEq]
          constructor
          · rintro ⟨rfl, rfl⟩
            left
            refine ⟨rfl, by omega, le_refl _, by omega, ?_, Or.inl rfl⟩
            intro z hz1 hz2
            exfalso; omega
          · rintro (⟨rfl, he1, he2, hm, -, -⟩ | ⟨h1, h2, h3, -⟩)
            · exact ⟨rfl, by omega⟩
            · exfalso; omega
        · rw [if_neg hc]
          simp only [List.not_mem_nil, false_iff]
          rintro (⟨rfl, he1, he2, hm, -, -⟩ | ⟨h1, h2, h3, -⟩) <;> omega
  | succ n ih =>
      intro y hy
      have hylt : y < h := by omega
      have ihy := ih (y + 1) (by omega)
      constructor
      · -- state `none`
        intro hleft s e
        cases hdiv : isDiv y with
        | true =>
            rw [gapScanAux_succ_div_none isDiv minH h n y hdiv]
            rw [ihy.2 y (by omega)
                (by intro z hz1 hz2
                    have : z = y := by omega
                    subst this; exact hdiv)
                hleft s e]
            constructor
            · rintro (⟨rfl, he1, he2, hm, hrows, hmax⟩ |
                ⟨h1, h2, h3, h4, hrows, hl, hr⟩)
              · refine ⟨le_refl _, by omega, he2, by omega, ?_, hleft, hmax⟩
                intro z hz1 hz2
                rcases eq_or_lt_of_le hz1 with rfl | hz'
                · exact hdiv
                · exact hrows z (by omega) hz2
              · exact ⟨by omega, h2, h3, h4, hrows, hl, hr⟩
            · rintro ⟨h1, h2, h3, h4, hrows, hl, hr⟩
              rcases eq_or_lt_of_le h1 with rfl | hs'
              · left
                refine ⟨rfl, by omega, h3, by omega, ?_, hr⟩
                intro z hz1 hz2
                exact hrows z (by omega) hz2
              · right
                exact ⟨by omega, h2, h3, h4, hrows, hl, hr⟩
        | false =>
            rw [gapScanAux_succ_nondiv_none isDiv minH h n y hdiv]
            rw [ihy.1 (Or.inr (by simpa using hdiv)) s e]
            constructor
            · rintro ⟨h1, h2, h3, h4, hrows, hl, hr⟩
              exact ⟨by omega, h2, h3, h4, hrows, hl, hr⟩
            · rintro ⟨h1, h2, h3, h4, hrows, hl, hr⟩
              refine ⟨?_, h2, h3, h4, hrows, hl, hr⟩
              rcases eq_or_lt_of_le h1 with rfl | hs'
              · exact absurd (hrows y (le_refl _) h2) (by simp [hdiv])
              · omega
      · -- state `some g`
        intro g hg hgrows hgleft s e
        cases hdiv : isDiv y with
        | true =>
            rw [gapScanAux_succ_div_some isDiv minH h n y g hdiv]
            rw [ihy.2 g (by omega)
                (by intro z hz1 hz2
                    rcases Nat.lt_or_ge z y with hz' | hz'
                    · exact hgrows z hz1 hz'
                    · have : z = y := by omega
                      subst this; exact hdiv)
                hgleft s e]
            constructor
            · rintro (⟨rfl, he1, he2, hm, hrows, hmax⟩ | hfresh)
              · left
                refine ⟨rfl, by omega, he2, hm, ?_, hmax⟩
                intro z hz1 hz2
                rcases eq_or_lt_of_le hz1 with rfl | hz'
                · exact hdiv
                · exact hrows z (by omega) hz2
              · right
                obtain ⟨h1, h2, h3, h4, hrows, hl, hr⟩ := hfresh
                exact ⟨by omega, h2, h3, h4, hrows, hl, hr⟩
            · rintro (⟨rfl, he1, he2, hm, hrows, hmax⟩ | hfresh)
              · left
                have he1' : y + 1 ≤ e := by
                  rcases eq_or_lt_of_le he1 with rfl | h'
                  · exfalso
                    rcases hmax with h'' | h''
                    · omega
                    · simp [hdiv] at h''
                  · omega
                refine ⟨rfl, he1', he2, hm, ?_, hmax⟩
                intro z hz1 hz2
                exact hrows z (by omega) hz2
              · right
                obtain ⟨h1, h2, h3, h4, hrows, hl, hr⟩ := hfresh
                refine ⟨?_, h2, h3, h4, hrows, hl, hr⟩
                rcases eq_or_lt_of_le h1 with rfl | hs'
                · exfalso
                  rcases hl with h' | h'
                  · omega
                  · have : isDiv (y - 1) = true := hgrows (y - 1) (by omega) (by omega)
                    simp [this] at h'
                · omega
        | false =>
            rw [gapScanAux_succ_nondiv_some isDiv minH h n y g hdiv]
            simp only [List.mem_append]
            rw [ihy.1 (Or.inr (by simpa using hdiv)) s e]
            constructor
            · rintro (hclose | hfresh)
              · left
                by_cases hc : minH ≤ y - g
                · rw [if_pos hc] at hclose
                  simp only [List.mem_singleton, Prod.mk.injEq] at hclose
                  obtain ⟨rfl, rfl⟩ := hclose
                  refine ⟨rfl, le_refl _, by omega, hc, ?_, Or.inr hdiv⟩
                  intro z hz1 hz2
                  exfalso; omega
                · rw [if_neg hc] at hclose
                  simp at hclose
              · right
                obtain ⟨h1, h2, h3, h4, hrows, hl, hr⟩ := hfresh
                exact ⟨by omega, h2, h3, h4, hrows, hl, hr⟩
            · rintro (⟨rfl, he1, he2, hm, hrows, hmax⟩ | hfresh)
              · left
                have heq : e = y := by
                  rcases eq_or_lt_of_le he1 with rfl | h'
                  · rfl
                  · exact absurd (hrows y (le_refl _) h') (by simp [hdiv])
                subst heq
                rw [if_pos hm]
                simp
              · right
                obtain ⟨h1, h2, h3, h4, hrows, hl, hr⟩ := hfresh
                refine ⟨?_, h2, h3, h4, hrows, hl, hr⟩
                rcases eq_or_lt_of_le h1 with rfl | hs'
                · exact absurd (hrows y (le_refl _) h2) (by simp [hdiv])
                · omega

/-- Membership characterisation of the divider scan: the emitted gaps are
exactly the maximal divider runs of height at least `minH`, including runs
touching the last row. -/
lemma gapScan_mem_iff (isDiv : Nat → Bool) (minH h s e : Nat) :
    (s, e) ∈ gapScan isDiv minH h ↔ IsDividerRun isDiv minH h s e :=
  (gapScanAux_mem isDiv minH h h 0 (by omega)).1 (Or.inl rfl) s e

/-- Divider-row classifier of `split_pngs.find_post_dividers` and of
`process_chunks.find_dividers_in_chunk` (defaults):
`row_mean >= 225 and row_std <= 6`. -/
def isDividerRowSplit (rowMean rowStd : Nat → ℚ) (y : Nat) : Bool :=
  decide (225 ≤ rowMean y) && decide (rowStd y ≤ 6)

/-- Divider-row classifier of `extract_chunks.find_post_regions`:
`row_mean > 220 and row_std < 8` (strict comparisons at this call site). -/
def isDividerRowEC (rowMean rowStd : Nat → ℚ) (y : Nat) : Bool :=
  decide (220 < rowMean y) && decide (rowStd y < 8)

/-- Embedding of `split_pngs.find_post_dividers` (lines 37–84): the divider scan with
`MIN_DIVIDER_HEIGHT = 8`, emitting `(center, gap_start, gap_end)` triples
with `center = gap_start + gap_height // 2`. -/
def findPostDividers (rowMean rowStd : Nat → ℚ) (h : Nat) :
    List (Nat × Nat × Nat) :=
  (gapScan (isDividerRowSplit rowMean rowStd) 8 h).map
    (fun g => (g.1 + (g.2 - g.1) / 2, g.1, g.2))

/-- Embedding of `process_chunks.find_dividers_in_chunk` (lines 59–87): the same scan
with default thresholds, emitting `(gap_start, gap_end)` pairs. -/
def findDividersInChunk (rowMean rowStd : Nat → ℚ) (h : Nat) :
    List (Nat × Nat) :=
  gapScan (isDividerRowSplit rowMean rowStd) 8 h

/-- C9: a row is classified as a divider row iff its mean brightness is at
least the brightness threshold (225) and its standard deviation is at most
the uniformity threshold (6); the emitted gaps are exactly the maximal
contiguous divider runs of height at least `MIN_DIVIDER_HEIGHT = 8`
(shorter runs are ignored), including a qualifying run touching the last
row (`e = h`); each gap carries its centre `s + (e - s) / 2`. -/
theorem dividerDetector_characterisation (rowMean rowStd : Nat → ℚ) (h : Nat) :
    (∀ y, isDividerRowSplit rowMean rowStd y = true ↔
      (225 ≤ rowMean y ∧ rowStd y ≤ 6)) ∧
    (∀ c s e, (c, s, e) ∈ findPostDividers rowMean rowStd h ↔
      (IsDividerRun (isDividerRowSplit rowMean rowStd) 8 h s e ∧
        c = s + (e - s) / 2)) := by
  constructor
  · intro y
    simp [isDividerRowSplit]
  · intro c s e
    unfold findPostDividers
    rw [List.mem_map]
    constructor
    · rintro ⟨⟨a, b⟩, hmem, heq⟩
      obtain ⟨hc, hs, he⟩ : a + (b - a) / 2 = c ∧ a = s ∧ b = e := by
        simpa [Prod.ext_iff] using heq
      subst hs; subst he
      exact ⟨(gapScan_mem_iff _ 8 h a b).mp hmem, hc.symm⟩
    · rintro ⟨hrun, rfl⟩
      exact ⟨(s, e), (gapScan_mem_iff _ 8 h s e).mpr hrun, rfl⟩

/-! ## Post-region segmentation (`extract_chunks.find_post_regions` second
half, `process_chunks.process_one_chunk` lines 271–281)

Both walk the gap list in order with a running `prev` end-of-last-gap
cursor; the candidate segment before each gap is kept iff it is tall
enough, and likewise the trailing segment `[prev, h)`.  The two call sites
differ in the keep threshold (`>= 80` vs `> 50`) and in the fallback:
`find_post_regions` substitutes the whole chunk when nothing survives,
`process_one_chunk` falls back only when there are no dividers at all. -/

/-- The segments the walk keeps (`keep prev bound` is the tallness test). -/
def segRegions (keep : Nat → Nat → Bool) (h : Nat) :
    Nat → List (Nat × Nat) → List (Nat × Nat)
  | prev, [] => if keep prev h then [(prev, h)] else []
  | prev, (gs, ge) :: rest =>
      (if keep prev gs then [(prev, gs)] else []) ++ segRegions keep h ge rest

/-- The candidate segments the same walk discards as noise. -/
def segDiscarded (keep : Nat → Nat → Bool) (h : Nat) :
    Nat → List (Nat × Nat) → List (Nat × Nat)
  | prev, [] => if keep prev h then [] else [(prev, h)]
  | prev, (gs, ge) :: rest =>
      (if keep prev gs then [] else [(prev, gs)]) ++ segDiscarded keep h ge rest

/-- The `extract_chunks` keep test: `gs - prev_end >= min_post_height` (80). -/
def keepEC (prev b : Nat) : Bool := decide (80 ≤ b - prev)

/-- The `process_chunks` keep test: `gap_start - prev > 50`. -/
def keepPC (prev b : Nat) : Bool := decide (50 < b - prev)

/-- Embedding of `extract_chunks.find_post_regions` (lines 99–136): divider scan with
the strict thresholds, segments kept at `min_post_height = 80`, and the
whole-chunk fallback `if not posts: posts = [(0, h)]`. -/
def findPostRegions (rowMean rowStd : Nat → ℚ) (h : Nat) : List (Nat × Nat) :=
  let gaps := gapScan (isDividerRowEC rowMean rowStd) 8 h
  let posts := segRegions keepEC h 0 gaps
  if posts = [] then [(0, h)] else posts

/-- The inline region building of `process_chunks.process_one_chunk`
(lines 271–281): `[(0, h)]` when no dividers were found, otherwise the
walk with threshold `> 50` — with no fallback when the walk keeps
nothing. -/
def buildRegionsPC (dividers : List (Nat × Nat)) (h : Nat) :
    List (Nat × Nat) :=
  if dividers = [] then [(0, h)]
  else segRegions keepPC h 0 dividers

/-- The discarded candidate segments of the same inline walk. -/
def discardedRegionsPC (dividers : List (Nat × Nat)) (h : Nat) :
    List (Nat × Nat) :=
  if dividers = [] then []
  else segDiscarded keepPC h 0 dividers

/-- Well-formedness of a gap list relative to a cursor: gaps are ordered,
non-overlapping and end within the image. -/
def ChainValid : Nat → List (Nat × Nat) → Nat → Prop
  | prev, [], h => prev ≤ h
  | prev, (gs, ge) :: rest, h => prev ≤ gs ∧ gs ≤ ge ∧ ChainValid ge rest h

lemma ChainValid.mono : ∀ {l : List (Nat × Nat)} {p p' h : Nat},
    ChainValid p l h → p' ≤ p → ChainValid p' l h := by
  intro l
  cases l with
  | nil => intro p p' h hc hle; exact le_trans hle hc
  | cons g rest =>
      intro p p' h hc hle
      obtain ⟨h1, h2, h3⟩ := hc
      exact ⟨le_trans hle h1, h2, h3⟩

lemma chainValid_le : ∀ (l : List (Nat × Nat)) (p h : Nat),
    ChainValid p l h → p ≤ h := by
  intro l
  induction l with
  | nil => intro p h hc; exact hc
  | cons g rest ih =>
      intro p h hc
      obtain ⟨h1, h2, h3⟩ := hc
      exact le_trans h1 (le_trans h2 (ih g.2 h h3))

lemma chainValid_gap_bounds : ∀ (l : List (Nat × Nat)) (p h : Nat),
    ChainValid p l h → ∀ g ∈ l, p ≤ g.1 ∧ g.1 ≤ g.2 ∧ g.2 ≤ h := by
  intro l
  induction l with
  | nil => intro p h _ g hg; simp at hg
  | cons g0 rest ih =>
      intro p h hc g hg
      obtain ⟨h1, h2, h3⟩ := hc
      rcases List.mem_cons.mp hg with rfl | hg'
      · exact ⟨h1, h2, chainValid_le rest g.2 h h3⟩
      · have := ih g0.2 h h3 g hg'
        exact ⟨le_trans h1 (le_trans h2 this.1), this.2.1, this.2.2⟩

/-- The divider scan emits a well-formed gap list. -/
lemma gapScanAux_chain (isDiv : Nat → Bool) (minH h : Nat) :
    ∀ (n : Nat), ∀ (y : Nat), y + n = h →
      ChainValid y (gapScanAux isDiv minH h n y none) h ∧
      (∀ g, g ≤ y →
        ChainValid g (gapScanAux isDiv minH h n y (some g)) h) := by
  intro n
  induction n with
  | zero =>
      intro y hy
      constructor
      · rw [gapScanAux_zero_none]
        show y ≤ h
        omega
      · intro g hg
        rw [gapScanAux_zero_some]
        by_cases hc : minH ≤ h - g
        · rw [if_pos hc]
          exact ⟨le_refl _, by omega, le_refl _⟩
        · rw [if_neg hc]
          show g ≤ h
          omega
  | succ n ih =>
      intro y hy
      have ihy := ih (y + 1) (by omega)
      constructor
      · cases hdiv : isDiv y with
        | true =>
            rw [gapScanAux_succ_div_none isDiv minH h n y hdiv]
            exact ihy.2 y (by omega)
        | false =>
            rw [gapScanAux_succ_nondiv_none isDiv minH h n y hdiv]
            exact ihy.1.mono (by omega)
      · intro g hg
        cases hdiv : isDiv y with
        | true =>
            rw [gapScanAux_succ_div_some isDiv minH h n y g hdiv]
            exact ihy.2 g (by omega)
        | false =>
            rw [gapScanAux_succ_nondiv_some isDiv minH h n y g hdiv]
            by_cases hc : minH ≤ y - g
            · rw [if_pos hc]
              exact ⟨le_refl _, by omega, (ihy.1).mono (by omega)⟩
            · rw [if_neg hc]
              exact (ihy.1).mono (by omega)

lemma gapScan_chain (isDiv : Nat → Bool) (minH h : Nat) :
    ChainValid 0 (gapScan isDiv minH h) h :=
  (gapScanAux_chain isDiv minH h h 0 (by omega)).1

lemma segRegions_mem_keep (keep : Nat → Nat → Bool) (h : Nat) :
    ∀ (gaps : List (Nat × Nat)) (prev : Nat) (r : Nat × Nat),
      r ∈ segRegions keep h prev gaps → keep r.1 r.2 = true := by
  intro gaps
  induction gaps with
  | nil =>
      intro prev r hr
      simp only [segRegions] at hr
      split at hr
      · rename_i hk
        rcases List.mem_singleton.mp hr with rfl
        exact hk
      · simp at hr
  | cons g rest ih =>
      intro prev r hr
      obtain ⟨gs, ge⟩ := g
      simp only [segRegions, List.mem_append] at hr
      rcases hr with hr | hr
      · split at hr
        · rename_i hk
          rcases List.mem_singleton.mp hr with rfl
          exact hk
        · simp at hr
      · exact ih ge r hr

lemma segRegions_bounds (keep : Nat → Nat → Bool) (h : Nat) :
    ∀ (gaps : List (Nat × Nat)) (prev : Nat), ChainValid prev gaps h →
      ∀ r ∈ segRegions keep h prev gaps,
        prev ≤ r.1 ∧ r.1 ≤ r.2 ∧ r.2 ≤ h := by
  intro gaps
  induction gaps with
  | nil =>
      intro prev hc r hr
      simp only [segRegions] at hr
      split at hr
      · rcases List.mem_singleton.mp hr with rfl
        exact ⟨le_refl _, hc, le_refl _⟩
      · simp at hr
  | cons g rest ih =>
      intro prev hc r hr
      obtain ⟨gs, ge⟩ := g
      obtain ⟨h1, h2, h3⟩ := hc
      simp only [segRegions, List.mem_append] at hr
      rcases hr with hr | hr
      · split at hr
        · rcases List.mem_singleton.mp hr with rfl
          exact ⟨le_refl _, h1, le_trans h2 (chainValid_le rest ge h h3)⟩
        · simp at hr
      · have := ih ge h3 r hr
        exact ⟨le_trans h1 (le_trans h2 this.1), this.2.1, this.2.2⟩

lemma segDiscarded_bounds (keep : Nat → Nat → Bool) (h : Nat) :
    ∀ (gaps : List (Nat × Nat)) (prev : Nat), ChainValid prev gaps h →
      ∀ r ∈ segDiscarded keep h prev gaps,
        prev ≤ r.1 ∧ r.1 ≤ r.2 ∧ r.2 ≤ h := by
  intro gaps
  induction gaps with
  | nil =>
      intro prev hc r hr
      simp only [segDiscarded] at hr
      split at hr
      · simp at hr
      · rcases List.mem_singleton.mp hr with rfl
        exact ⟨le_refl _, hc, le_refl _⟩
  | cons g rest ih =>
      intro prev hc r hr
      obtain ⟨gs, ge⟩ := g
      obtain ⟨h1, h2, h3⟩ := hc
      simp only [segDiscarded, List.mem_append] at hr
      rcases hr with hr | hr
      · split at hr
        · simp at hr
        · rcases List.mem_singleton.mp hr with rfl
          exact ⟨le_refl _, h1, le_trans h2 (chainValid_le rest ge h h3)⟩
      · have := ih ge h3 r hr
        exact ⟨le_trans h1 (le_trans h2 this.1), this.2.1, this.2.2⟩

lemma segRegions_pairwise (keep : Nat → Nat → Bool) (h : Nat) :
    ∀ (gaps : List (Nat × Nat)) (prev : Nat), ChainValid prev gaps h →
      (segRegions keep h prev gaps).Pairwise (fun a b => a.2 ≤ b.1) := by
  intro gaps
  induction gaps with
  | nil =>
      intro prev _
      simp only [segRegions]
      split <;> simp
  | cons g rest ih =>
      intro prev hc
      obtain ⟨gs, ge⟩ := g
      obtain ⟨h1, h2, h3⟩ := hc
      simp only [segRegions]
      rw [List.pairwise_append]
      refine ⟨?_, ih ge h3, ?_⟩
      · split <;> simp
      · intro a ha b hb
        have hbs := segRegions_bounds keep h rest ge h3 b hb
        split at ha
        · rcases List.mem_singleton.mp ha with rfl
          exact le_trans h2 hbs.1
        · simp at ha

lemma seg_cover (keep : Nat → Nat → Bool) (h : Nat) :
    ∀ (gaps : List (Nat × Nat)) (prev : Nat), ChainValid prev gaps h →
      ∀ y, prev ≤ y → y < h →
        (∃ r ∈ segRegions keep h prev gaps, r.1 ≤ y ∧ y < r.2) ∨
        (∃ d ∈ segDiscarded keep h prev gaps, d.1 ≤ y ∧ y < d.2) ∨
        (∃ g ∈ gaps, g.1 ≤ y ∧ y < g.2) := by
  intro gaps
  induction gaps with
  | nil =>
      intro prev _ y hy1 hy2
      by_cases hk : keep prev h = true
      · left
        exact ⟨(prev, h), by simp [segRegions, if_pos hk], hy1, hy2⟩
      · right; left
        exact ⟨(prev, h), by simp [segDiscarded, if_neg hk], hy1, hy2⟩
  | cons g rest ih =>
      intro prev hc y hy1 hy2
      obtain ⟨gs, ge⟩ := g
      obtain ⟨h1, h2, h3⟩ := hc
      by_cases hygs : y < gs
      · by_cases hk : keep prev gs = true
        · left
          refine ⟨(prev, gs), ?_, hy1, hygs⟩
          simp [segRegions, if_pos hk]
        · right; left
          refine ⟨(prev, gs), ?_, hy1, hygs⟩
          simp [segDiscarded, if_neg hk]
      · by_cases hyge : y < ge
        · right; right
          exact ⟨(gs, ge), List.mem_cons_self _ _, by omega, hyge⟩
        · rcases ih ge h3 y (by omega) hy2 with hr | hd | hg
          · left
            obtain ⟨r, hr1, hr2⟩ := hr
            exact ⟨r, by simp [segRegions, List.mem_append]; right; exact hr1, hr2⟩
          · right; left
            obtain ⟨d, hd1, hd2⟩ := hd
            exact ⟨d, by simp [segDiscarded, List.mem_append]; right; exact hd1, hd2⟩
          · right; right
            obtain ⟨g', hg1, hg2⟩ := hg
            exact ⟨g', List.mem_cons_of_mem _ hg1, hg2⟩

/-- C8: for any input chunk (any per-row statistics and height), the post
regions output by the Region Segmenter are pairwise disjoint (each ends no
later than the next begins), and together with the gap rows and the
discarded noise segments they cover `[0, h)` exactly — both for
`extract_chunks.find_post_regions` and for the inline region building of
`process_chunks.process_one_chunk` over its detected dividers. -/
theorem regionSegmenter_partition (rowMean rowStd : Nat → ℚ) (h : Nat) :
    ((findPostRegions rowMean rowStd h).Pairwise (fun a b => a.2 ≤ b.1) ∧
      (∀ y, y < h ↔
        ((∃ r ∈ findPostRegions rowMean rowStd h, r.1 ≤ y ∧ y < r.2) ∨
          (∃ d ∈ segDiscarded keepEC h 0
              (gapScan (isDividerRowEC rowMean rowStd) 8 h), d.1 ≤ y ∧ y < d.2) ∨
          (∃ g ∈ gapScan (isDividerRowEC rowMean rowStd) 8 h,
            g.1 ≤ y ∧ y < g.2)))) ∧
    ((buildRegionsPC (findDividersInChunk rowMean rowStd h) h).Pairwise
        (fun a b => a.2 ≤ b.1) ∧
      (∀ y, y < h ↔
        ((∃ r ∈ buildRegionsPC (findDividersInChunk rowMean rowStd h) h,
            r.1 ≤ y ∧ y < r.2) ∨
          (∃ d ∈ discardedRegionsPC (findDividersInChunk rowMean rowStd h) h,
            d.1 ≤ y ∧ y < d.2) ∨
          (∃ g ∈ findDividersInChunk rowMean rowStd h,
            g.1 ≤ y ∧ y < g.2)))) := by
  have hchainEC : ChainValid 0 (gapScan (isDividerRowEC rowMean rowStd) 8 h) h :=
    gapScan_chain _ 8 h
  have hchainPC : ChainValid 0 (findDividersInChunk rowMean rowStd h) h :=
    gapScan_chain _ 8 h
  constructor
  · -- extract_chunks.find_post_regions
    constructor
    · unfold findPostRegions
      by_cases hfb : segRegions keepEC h 0
          (gapScan (isDividerRowEC rowMean rowStd) 8 h) = []
      · rw [if_pos hfb]; simp
      · rw [if_neg hfb]
        exact segRegions_pairwise keepEC h _ 0 hchainEC
    · intro y
      constructor
      · intro hy
        unfold findPostRegions
        by_cases hfb : segRegions keepEC h 0
            (gapScan (isDividerRowEC rowMean rowStd) 8 h) = []
        · rw [if_pos hfb]
          left
          exact ⟨(0, h), List.mem_singleton.mpr rfl, by omega, hy⟩
        · rw [if_neg hfb]
          exact seg_cover keepEC h _ 0 hchainEC y (by omega) hy
      · rintro (⟨r, hr, hy1, hy2⟩ | ⟨d, hd, hy1, hy2⟩ | ⟨g, hg, hy1, hy2⟩)
        · simp only [findPostRegions] at hr
          split at hr
          · rcases List.mem_singleton.mp hr with rfl
            omega
          · have := segRegions_bounds keepEC h _ 0 hchainEC r hr
            omega
        · have := segDiscarded_bounds keepEC h _ 0 hchainEC d hd
          omega
        · have := chainValid_gap_bounds _ 0 h hchainEC g hg
          omega
  · -- process_chunks.process_one_chunk inline region building
    constructor
    · unfold buildRegionsPC
      by_cases hdc : findDividersInChunk rowMean rowStd h = []
      · rw [if_pos hdc]; simp
      · rw [if_neg hdc]
        exact segRegions_pairwise keepPC h _ 0 hchainPC
    · intro y
      constructor
      · intro hy
        unfold buildRegionsPC discardedRegionsPC
        by_cases hdc : findDividersInChunk rowMean rowStd h = []
        · rw [if_pos hdc, if_pos hdc]
          left
          exact ⟨(0, h), List.mem_singleton.mpr rfl, by omega, hy⟩
        · rw [if_neg hdc, if_neg hdc]
          exact seg_cover keepPC h _ 0 hchainPC y (by omega) hy
      · rintro (⟨r, hr, hy1, hy2⟩ | ⟨d, hd, hy1, hy2⟩ | ⟨g, hg, hy1, hy2⟩)
        · unfold buildRegionsPC at hr
          split at hr
          · rcases List.mem_singleton.mp hr with rfl
            omega
          · have := segRegions_bounds keepPC h _ 0 hchainPC r hr
            omega
        · unfold discardedRegionsPC at hd
          split at hd
          · simp at hd
          · have := segDiscarded_bounds keepPC h _ 0 hchainPC d hd
            omega
        · have := chainValid_gap_bounds _ 0 h hchainPC g hg
          omega

/-- C6 (amended): `extract_chunks.find_post_regions` discards candidate
regions shorter than `min_post_height = 80` and falls back to the whole
chunk when nothing survives, so it always emits at least one region —
either exactly the whole-chunk fallback `[(0, h)]`, or regions that are
all at least 80 rows tall. -/
theorem findPostRegions_emits_at_least_one (rowMean rowStd : Nat → ℚ)
    (h : Nat) :
    findPostRegions rowMean rowStd h ≠ [] ∧
      (findPostRegions rowMean rowStd h = [(0, h)] ∨
        ∀ r ∈ findPostRegions rowMean rowStd h, 80 ≤ r.2 - r.1) := by
  unfold findPostRegions
  by_cases hfb : segRegions keepEC h 0
      (gapScan (isDividerRowEC rowMean rowStd) 8 h) = []
  · rw [if_pos hfb]
    exact ⟨by simp, Or.inl rfl⟩
  · rw [if_neg hfb]
    refine ⟨hfb, Or.inr ?_⟩
    intro r hr
    have := segRegions_mem_keep keepEC h _ 0 r hr
    simpa [keepEC] using this

/-- C6 counterexample: a 100-row chunk whose rows are all divider rows
(mean 255, deviation 0).  `find_dividers_in_chunk` reports the single gap
`(0, 100)`, and the inline region building of
`process_chunks.process_one_chunk` then emits zero post regions — it has
no whole-chunk fallback, so this chunk is silently dropped. -/
theorem processChunks_can_emit_zero_regions :
    buildRegionsPC
        (findDividersInChunk (fun _ => 255) (fun _ => 0) 100) 100 = [] := by
  decide

/-! ## Content signal detection (`extract_chunks.detect_signals`,
`process_chunks.detect_signals`)

Text is a list of characters; `tl = text.lower()` maps `Char.toLower`.
`"kw" in tl` is substring containment.  The two photo regexes
`\+\s*(\d+)\s*(photo|image|pic)` and `(\d+)\s*(photo|image|pic)` are
embedded as direct scanners with `re.search` leftmost-match semantics (the
quantifiers consume character classes disjoint from what follows, so the
greedy scan needs no backtracking, and the alternation tries `photo`,
`image`, `pic` in order exactly as the regex engine does).  Only the
fields the tag table and date/link/reaction rules do not touch
(`has_see_more`, `has_more_photos`, `more_photos_hint`, `has_video`,
`post_type`) are carried; the omitted fields do not feed into these. -/

/-- Character-list prefix test. -/
def isPrefixChars : List Char → List Char → Bool
  | [], _ => true
  | _ :: _, [] => false
  | a :: as, b :: bs => decide (a = b) && isPrefixChars as bs

/-- Character-list substring test (`needle in haystack`). -/
def isInfixChars (n : List Char) : List Char → Bool
  | [] => n.isEmpty
  | c :: rest => isPrefixChars n (c :: rest) || isInfixChars n rest

/-- Python `"needle" in haystack` on lower-cased text. -/
def containsSub (needle : String) (hay : List Char) : Bool :=
  isInfixChars needle.toList hay

/-- The alternation `(photo|image|pic)` matched at the head of `cs`,
first alternative wins. -/
def matchAlt (cs : List Char) : Option (List Char) :=
  if isPrefixChars "photo".toList cs then some "photo".toList
  else if isPrefixChars "image".toList cs then some "image".toList
  else if isPrefixChars "pic".toList cs then some "pic".toList
  else none

/-- Pattern `(\d+)\s*(photo|image|pic)` matched at the head of `cs`; returns
`(group 0, group 1)`. -/
def matchNumPhotoAt (cs : List Char) : Option (List Char × List Char) :=
  let digits := cs.takeWhile Char.isDigit
  if digits.isEmpty then none
  else
    let rest1 := cs.drop digits.length
    let sp := rest1.takeWhile Char.isWhitespace
    let rest2 := rest1.drop sp.length
    match matchAlt rest2 with
    | some kw => some (digits ++ sp ++ kw, digits)
    | none => none

/-- Pattern `\+\s*(\d+)\s*(photo|image|pic)` matched at the head of `cs`; returns
group 0. -/
def matchPlusPhotoAt : List Char → Option (List Char)
  | [] => none
  | c :: rest =>
      if c = '+' then
        let sp := rest.takeWhile Char.isWhitespace
        let rest1 := rest.drop sp.length
        match matchNumPhotoAt rest1 with
        | some (g0, _) => some ('+' :: (sp ++ g0))
        | none => none
      else none

/-- Python `re.search` semantics: try the pattern at each start position from the
left, first successful position wins (neither pattern can match the empty
string, so the positions after the last character need not be tried). -/
def searchFirst {α : Type} (m : List Char → Option α) : List Char → Option α
  | [] => none
  | c :: rest =>
      match m (c :: rest) with
      | some r => some r
      | none => searchFirst m rest

/-- Python `int(...)` on a non-empty digit group. -/
def digitsToNat (ds : List Char) : Nat :=
  ds.foldl (fun a c => 10 * a + (c.toNat - 48)) 0

/-- The claim-relevant fields of the signals record. -/
structure Signals where
  has_see_more : Bool
  has_more_photos : Bool
  more_photos_hint : List Char
  has_video : Bool
  post_type : String

/-- The `post_type` elif-chain of `extract_chunks.detect_signals`
(lines 257–265): video > check-in > photo > share > post. -/
def resolvePostTypeEC (hasVideo checkin photoish shared : Bool) : String :=
  if hasVideo then "video"
  else if checkin then "check-in"
  else if photoish then "photo"
  else if shared then "share"
  else "post"

/-- Embedding of `extract_chunks.detect_signals` (lines 187–267), restricted to the
claim-relevant fields.  The more-photos rule is an if/else: the `+N photo`
pattern wins, otherwise a bare `N photo` counts only when `N > 3`. -/
def detectSignalsEC (text : List Char) : Signals :=
  if text.isEmpty then
    { has_see_more := false, has_more_photos := false, more_photos_hint := []
      has_video := false, post_type := "post" }
  else
    let tl := text.map Char.toLower
    let hasSeeMore := containsSub "see more" tl || containsSub "see\nmore" tl
    let hasVideo := containsSub "video" tl || containsSub "watch" tl ||
      containsSub "▶" tl || containsSub "►" tl
    let photoRes : Bool × List Char :=
      match searchFirst matchPlusPhotoAt tl with
      | some g0 => (true, g0)
      | none =>
          match searchFirst matchNumPhotoAt tl with
          | some (g0, d) => if 3 < digitsToNat d then (true, g0) else (false, [])
          | none => (false, [])
    let checkin := containsSub "checked in" tl || containsSub "was at" tl ||
      containsSub "was here" tl
    let photoish := photoRes.1 || containsSub "photo" tl || containsSub "album" tl
    let shared := containsSub "shared" tl
    { has_see_more := hasSeeMore, has_more_photos := photoRes.1,
      more_photos_hint := photoRes.2, has_video := hasVideo,
      post_type := resolvePostTypeEC hasVideo checkin photoish shared }

/-- Embedding of `process_chunks.detect_signals` (lines 119–187), restricted to the
claim-relevant fields.  Here the two photo rules are sequential `if`s (the
album rule can overwrite the `+N photo` hint), the video rule sets
`post_type = "video"` early, and the final photo rule (line 184)
overwrites `post_type` with `"photo"` whenever a photo indicator is
present. -/
def detectSignalsPC (text : List Char) : Signals :=
  if text.isEmpty then
    { has_see_more := false, has_more_photos := false, more_photos_hint := []
      has_video := false, post_type := "post" }
  else
    let tl := text.map Char.toLower
    let hasSeeMore := containsSub "see more" tl || containsSub "see\nmore" tl
    let st1 : Bool × List Char :=
      match searchFirst matchPlusPhotoAt tl with
      | some g0 => (true, g0)
      | none => (false, [])
    let st2 : Bool × List Char :=
      match searchFirst matchNumPhotoAt tl with
      | some (g0, d) => if 3 < digitsToNat d then (true, g0) else st1
      | none => st1
    let hasVideo := containsSub "video" tl || containsSub "watch" tl
    let pt0 := if hasVideo then "video" else "post"
    let postType := if st2.1 || containsSub "photo" tl then "photo" else pt0
    { has_see_more := hasSeeMore, has_more_photos := st2.1,
      more_photos_hint := st2.2, has_video := hasVideo,
      post_type := postType }

/-- C3 (amended): in `extract_chunks.detect_signals` the `post_type`
elif-chain gives video top priority, so any text carrying a video keyword
— in particular text that also carries a photo indicator — resolves to
`post_type = "video"`.  (The `process_chunks` variant violates this, see
the counterexample.) -/
theorem detectSignalsEC_video_priority (text : List Char)
    (hv : (detectSignalsEC text).has_video = true) :
    (detectSignalsEC text).post_type = "video" := by
  by_cases he : text.isEmpty = true
  · rw [detectSignalsEC, if_pos he] at hv
    simp at hv
  · rw [detectSignalsEC, if_neg he] at hv ⊢
    simp only at hv ⊢
    rw [hv]
    rfl

/-- Witness for `detectSignalsEC_video_priority`: text containing both a
video keyword and a photo indicator. -/
theorem detectSignalsEC_video_priority_witness :
    (detectSignalsEC ("new video and photos".toList)).has_video = true ∧
      (detectSignalsEC ("new video and photos".toList)).post_type = "video" :=
  ⟨by decide, detectSignalsEC_video_priority _ (by decide)⟩

/-- C3 counterexample: for the text `"photo video"` (carrying both a video
keyword and a photo indicator), `process_chunks.detect_signals` sets the
video flag but resolves `post_type` to `"photo"`, because its photo rule
runs after the video rule and overwrites it — the claimed fixed priority
order video > photo does not hold there. -/
theorem detectSignalsPC_photo_overrides_video :
    (detectSignalsPC ("photo video".toList)).has_video = true ∧
      (detectSignalsPC ("photo video".toList)).post_type ≠ "video" := by
  constructor
  · decide
  · decide

/-- C4 counterexample: on the text `"+12 photos"` the matched hint is
`"+12 photo"` — the regex `\+\s*(\d+)\s*(photo|image|pic)` stops before
the plural `s`, so `more_photos_hint` is not the full `"+12 photos"`
text. -/
theorem morePhotosHint_drops_plural :
    (detectSignalsEC ("+12 photos".toList)).more_photos_hint ≠
      "+12 photos".toList := by
  decide

/-- C4 (amended): text `"+12 photos"` yields `has_more_photos = true` with
hint `"+12 photo"` in `extract_chunks.detect_signals` (the match excludes
the plural `s`), and hint `"12 photo"` in `process_chunks.detect_signals`
(whose album rule overwrites the `+N` hint); text `"3 photos"` (bare count
`N <= 3`) yields `has_more_photos = false` in both. -/
theorem morePhotos_scenarios :
    (detectSignalsEC ("+12 photos".toList)).has_more_photos = true ∧
      (detectSignalsEC ("+12 photos".toList)).more_photos_hint =
        "+12 photo".toList ∧
      (detectSignalsEC ("3 photos".toList)).has_more_photos = false ∧
      (detectSignalsPC ("+12 photos".toList)).has_more_photos = true ∧
      (detectSignalsPC ("+12 photos".toList)).more_photos_hint =
        "12 photo".toList ∧
      (detectSignalsPC ("3 photos".toList)).has_more_photos = false := by
  refine ⟨by decide, by decide, by decide, by decide, by decide, by decide⟩

/-! ## Embedded image extraction (`process_chunks.extract_post_images` and
the entry building of `process_chunks.process_one_chunk` lines 306–324;
`extract_chunks.extract_images`)

A region is a list of pixel rows (channel samples abstracted to one value
per pixel; `np.std` runs over all samples either way).  The
Canny/dilate/findContours stage is an OpenCV library call: it is a pure
function of the region pixels, modelled as the function parameter
`findBoxes`; every filter the repository applies to its output is embedded
exactly.  The float comparisons `cw < w * 0.3` and `aspect > 10 or
aspect < 0.1` are expressed exactly over the integers (the float rounding
cannot cross these rational boundaries for image-sized operands), and
`np.std(roi) < 20` is compared via the exact variance.  `hashlib.md5 +
hexdigest[:12]` is an injective-in-practice digest of the id string,
modelled as the function parameter `hash`. -/

/-- Width `region.shape[1]` of the region. -/
def regionWidth (region : List (List Int)) : Nat := (region.headD []).length

/-- Slice `region[y:y+ch, x:x+cw]` (numpy slicing clips at the array bounds). -/
def cropRoi (region : List (List Int)) (x y cw ch : Nat) : List (List Int) :=
  ((region.drop y).take ch).map (fun row => (row.drop x).take cw)

/-- Size `roi.size` (total sample count). -/
def roiSize (roi : List (List Int)) : Nat := (roi.map List.length).sum

def roiSum (roi : List (List Int)) : Int := (roi.map List.sum).sum

def roiSumSq (roi : List (List Int)) : Int :=
  (roi.map (fun r => (r.map (fun v => v * v)).sum)).sum

/-- Test `np.std(roi) < 20`, compared exactly: with `n` samples of sum `s` and
sum of squares `s2`, the variance is `(n*s2 - s^2) / n^2`, and
`std < 20 ↔ n*s2 - s^2 < 400*n^2`. -/
def stdLt20 (roi : List (List Int)) : Bool :=
  let n : Int := (roiSize roi : Int)
  decide (n * roiSumSq roi - roiSum roi * roiSum roi < 400 * (n * n))

/-- Embedding of `extract_post_images` (process_chunks.py lines 90–116): for each
contour bounding box `(x, y, cw, ch)`, reject if a side is under 80px, if
the box spans less than 0.3 of the region width, if the aspect ratio
`cw/ch` is above 10 or below 0.1, if the sliced ROI is empty, or if its
standard deviation is below 20; survivors carry their box and ROI pixels.
(The `ch = 0` guard of the aspect test is unreachable: `ch ≥ 80` here.) -/
def extractPostImages
    (findBoxes : List (List Int) → List (Nat × Nat × Nat × Nat))
    (region : List (List Int)) :
    List ((Nat × Nat × Nat × Nat) × List (List Int)) :=
  let w := regionWidth region
  (findBoxes region).filterMap (fun b =>
    let x := b.1
    let y := b.2.1
    let cw := b.2.2.1
    let ch := b.2.2.2
    if cw < 80 || ch < 80 then none
    else if 10 * cw < 3 * w then none
    else if 10 * ch < cw || 10 * cw < ch then none
    else
      let roi := cropRoi region x y cw ch
      if roiSize roi = 0 then none
      else if stdLt20 roi then none
      else some ((x, y, cw, ch), roi))

/-- The id preimage of `process_one_chunk` (line 309):
`f"{source_file}_{chunk_idx}_{ridx}_{x}_{y}"`. -/
def idString (src : String) (ci ri x y : Nat) : String :=
  src ++ "_" ++ toString ci ++ "_" ++ toString ri ++ "_" ++
    toString x ++ "_" ++ toString y

/-- The id preimage of `extract_chunks.extract_images` (line 168):
`f"{source_file}_{post_idx}_{x}_{y+y_offset}"`. -/
def idStringEC (src : String) (postIdx x yGlobal : Nat) : String :=
  src ++ "_" ++ toString postIdx ++ "_" ++ toString x ++ "_" ++
    toString yGlobal

/-- An image record of `process_one_chunk` (lines 314–324). -/
structure ImageEntry where
  id : String
  source_file : String
  chunk_index : Nat
  region : Nat × Nat × Nat × Nat
  width : Nat
  height : Nat
  is_thumbnail : Bool
  pixels : List (List Int)

/-- Entry building of `process_one_chunk` for one surviving box
(`yBase = y_offset + ry_start`): id is the digest of the provenance
string, the recorded region is `[x, y + yBase, cw, ch]`, thumbnail iff a
side is under 200px, and the saved pixel data is the ROI. -/
def mkImageEntry (hash : String → String) (src : String) (ci ri yBase : Nat)
    (t : (Nat × Nat × Nat × Nat) × List (List Int)) : ImageEntry :=
  { id := hash (idString src ci ri t.1.1 t.1.2.1)
    source_file := src
    chunk_index := ci
    region := (t.1.1, t.1.2.1 + yBase, t.1.2.2.1, t.1.2.2.2)
    width := t.1.2.2.1
    height := t.1.2.2.2
    is_thumbnail := t.1.2.2.1 < 200 || t.1.2.2.2 < 200
    pixels := t.2 }

/-- An image record of `extract_chunks.extract_images` (lines 172–180),
restricted to the provenance-derived fields. -/
structure ImageEntryEC where
  id : String
  post_index : Nat
  region : Nat × Nat × Nat × Nat
  width : Nat
  height : Nat
  is_thumbnail : Bool

/-- Entry building of `extract_chunks.extract_images` for one surviving
box: id is the digest of `(source_file, post_idx, x, y + y_offset)`. -/
def mkImageEntryEC (hash : String → String) (src : String)
    (postIdx yOff : Nat)
    (t : (Nat × Nat × Nat × Nat) × List (List Int)) : ImageEntryEC :=
  { id := hash (idStringEC src postIdx t.1.1 (t.1.2.1 + yOff))
    post_index := postIdx
    region := (t.1.1, t.1.2.1 + yOff, t.1.2.2.1, t.1.2.2.2)
    width := t.1.2.2.1
    height := t.1.2.2.2
    is_thumbnail := t.1.2.2.1 < 200 || t.1.2.2.2 < 200 }

/-- The image records a chunk run produces for one post region. -/
def extractImageEntries (hash : String → String)
    (findBoxes : List (List Int) → List (Nat × Nat × Nat × Nat))
    (src : String) (ci ri yBase : Nat) (region : List (List Int)) :
    List ImageEntry :=
  (extractPostImages findBoxes region).map (mkImageEntry hash src ci ri yBase)

/-- Every surviving tuple carries exactly the ROI sliced from the input
region at its own box. -/
lemma extractPostImages_roi (findBoxes : List (List Int) →
      List (Nat × Nat × Nat × Nat)) (region : List (List Int)) :
    ∀ t ∈ extractPostImages findBoxes region,
      t.2 = cropRoi region t.1.1 t.1.2.1 t.1.2.2.1 t.1.2.2.2 := by
  intro t ht
  obtain ⟨b, _, heq⟩ := List.mem_filterMap.mp ht
  simp only at heq
  split at heq
  · simp at heq
  · split at heq
    · simp at heq
    · split at heq
      · simp at heq
      · split at heq
        · simp at heq
        · split at heq
          · simp at heq
          · rcases Option.some.injEq .. ▸ heq with rfl
            rfl

/-- C7: embedded image extraction is deterministic and content-addressed —
running it twice on byte-identical region pixels (with the same contour
collaborator) produces identical image records, every record's id is the
digest of the provenance tuple `(source_file, chunk_index, region_index,
x, y)`, and its pixel data is exactly the ROI sliced from the input region
at its bounding box. -/
theorem extractor_deterministic_content_addressed
    (hash : String → String)
    (findBoxes : List (List Int) → List (Nat × Nat × Nat × Nat))
    (src : String) (ci ri yBase : Nat)
    (region region' : List (List Int)) (hreg : region = region') :
    extractImageEntries hash findBoxes src ci ri yBase region =
      extractImageEntries hash findBoxes src ci ri yBase region' ∧
    (∀ t ∈ extractPostImages findBoxes region,
      (mkImageEntry hash src ci ri yBase t).id =
        hash (idString src ci ri t.1.1 t.1.2.1) ∧
      (mkImageEntry hash src ci ri yBase t).pixels =
        cropRoi region t.1.1 t.1.2.1 t.1.2.2.1 t.1.2.2.2) := by
  subst hreg
  refine ⟨rfl, ?_⟩
  intro t ht
  exact ⟨rfl, extractPostImages_roi findBoxes region t ht⟩

/-- Witness for `extractor_deterministic_content_addressed` at a concrete
80×80 checkerboard region and a single full-size box. -/
theorem extractor_deterministic_witness :
    (List.replicate 80 ((List.range 80).map
        (fun i => if i % 2 = 0 then (0 : Int) else 255))) =
      (List.replicate 80 ((List.range 80).map
        (fun i => if i % 2 = 0 then (0 : Int) else 255))) ∧
      (extractImageEntries (fun s => s) (fun _ => [(0, 0, 80, 80)])
          "fb1_chunk_000.jpg" 0 1 5
          (List.replicate 80 ((List.range 80).map
            (fun i => if i % 2 = 0 then (0 : Int) else 255))) =
        extractImageEntries (fun s => s) (fun _ => [(0, 0, 80, 80)])
          "fb1_chunk_000.jpg" 0 1 5
          (List.replicate 80 ((List.range 80).map
            (fun i => if i % 2 = 0 then (0 : Int) else 255))) ∧
        (∀ t ∈ extractPostImages (fun _ => [(0, 0, 80, 80)])
            (List.replicate 80 ((List.range 80).map
              (fun i => if i % 2 = 0 then (0 : Int) else 255))),
          (mkImageEntry (fun s => s) "fb1_chunk_000.jpg" 0 1 5 t).id =
            (fun s => s) (idString "fb1_chunk_000.jpg" 0 1 t.1.1 t.1.2.1) ∧
          (mkImageEntry (fun s => s) "fb1_chunk_000.jpg" 0 1 5 t).pixels =
            cropRoi (List.replicate 80 ((List.range 80).map
              (fun i => if i % 2 = 0 then (0 : Int) else 255)))
              t.1.1 t.1.2.1 t.1.2.2.1 t.1.2.2.2)) :=
  ⟨rfl, extractor_deterministic_content_addressed (fun s => s)
    (fun _ => [(0, 0, 80, 80)]) "fb1_chunk_000.jpg" 0 1 5 _ _ rfl⟩

/-- C10: the extracted-image identifier is a function of only the
provenance fields — source file, chunk index, region index and the box's
top-left corner — and is independent of the box's width, height and pixel
content; consequently two surviving boxes of the same region with the same
top-left corner receive the same id (in both `process_chunks` and
`extract_chunks` id schemes). -/
theorem imageId_depends_only_on_provenance
    (hash : String → String) (src : String) (ci ri yBase pidx yOff : Nat)
    (x y cw ch cw' ch' : Nat) (roi roi' : List (List Int))
    (ts : List ((Nat × Nat × Nat × Nat) × List (List Int))) :
    (mkImageEntry hash src ci ri yBase ((x, y, cw, ch), roi)).id =
      (mkImageEntry hash src ci ri yBase ((x, y, cw', ch'), roi')).id ∧
    (∀ t1 ∈ ts, ∀ t2 ∈ ts, t1.1.1 = t2.1.1 → t1.1.2.1 = t2.1.2.1 →
      (mkImageEntry hash src ci ri yBase t1).id =
        (mkImageEntry hash src ci ri yBase t2).id) ∧
    (∀ t1 ∈ ts, ∀ t2 ∈ ts, t1.1.1 = t2.1.1 → t1.1.2.1 = t2.1.2.1 →
      (mkImageEntryEC hash src pidx yOff t1).id =
        (mkImageEntryEC hash src pidx yOff t2).id) := by
  refine ⟨rfl, ?_, ?_⟩
  · intro t1 _ t2 _ hx hy
    simp only [mkImageEntry, idString, hx, hy]
  · intro t1 _ t2 _ hx hy
    simp only [mkImageEntryEC, idStringEC, hx, hy]

/-- Witness for `imageId_depends_only_on_provenance`: two boxes sharing
the top-left corner `(12, 7)` but with different sizes and pixels receive
the same id. -/
theorem imageId_depends_only_on_provenance_witness :
    (mkImageEntry (fun s => s) "fb1.png" 2 1 40 ((12, 7, 300, 250), [[0]])).id =
      (mkImageEntry (fun s => s) "fb1.png" 2 1 40 ((12, 7, 150, 90), [[9, 9]])).id :=
  (imageId_depends_only_on_provenance (fun s => s) "fb1.png" 2 1 40 0 0
      12 7 300 250 150 90 [[0]] [[9, 9]]
      [((12, 7, 300, 250), [[0]]), ((12, 7, 150, 90), [[9, 9]])]).2.1
    ((12, 7, 300, 250), [[0]]) (by simp)
    ((12, 7, 150, 90), [[9, 9]]) (by simp) rfl rfl

/-! ## Checkpoint persistence (`process_chunks.save_progress` lines
218–233, `save_timeline` lines 236–249)

Both functions write the new JSON to `path + ".tmp"` (with flush and
fsync), then — commented "Windows-safe: remove then rename" — call
`os.remove(path)` if the destination exists, and then
`os.rename(tmp, path)`.  The filesystem is modelled by the contents at the
destination path and at the temporary path; each system call is one atomic
step, and a crash may happen between any two steps. -/

/-- One filesystem step of the save sequence. -/
inductive SaveOp where
  | writeTmp (s : String)
  | removeDst
  | renameTmpDst

/-- Filesystem state: contents at the destination path and at the
temporary path (`none` = file absent). -/
structure FsState where
  dst : Option String
  tmp : Option String

def applyOp (st : FsState) : SaveOp → FsState
  | .writeTmp s => { st with tmp := some s }
  | .removeDst => { st with dst := none }
  | .renameTmpDst =>
      match st.tmp with
      | some s => { dst := some s, tmp := none }
      | none => st

/-- The step sequence of `save_progress` / `save_timeline`: write the tmp
file, remove the destination, rename the tmp file onto the destination. -/
def saveOps (newContent : String) : List SaveOp :=
  [.writeTmp newContent, .removeDst, .renameTmpDst]

def runOps (init : FsState) (ops : List SaveOp) : FsState :=
  ops.foldl applyOp init

/-- State observed if the process crashes after the first `k` steps. -/
def crashState (init : FsState) (ops : List SaveOp) (k : Nat) : FsState :=
  runOps init (ops.take k)

/-- C2 evaluation: the save sequence is not atomic.  Starting from a
destination holding the previous checkpoint `"old"`, a crash after the
remove step (`k = 2`) leaves no file at the destination path — neither the
complete previous file nor the complete new file — while a full run does
install the new content.  (`load_progress` then silently falls back to
empty progress, so the last good state is lost.) -/
theorem saveProgress_crash_after_remove_loses_state :
    (crashState ⟨some "old", none⟩ (saveOps "new") 2).dst = none ∧
      (crashState ⟨some "old", none⟩ (saveOps "new") 2).dst ≠ some "old" ∧
      (crashState ⟨some "old", none⟩ (saveOps "new") 2).dst ≠ some "new" ∧
      (runOps ⟨some "old", none⟩ (saveOps "new")).dst = some "new" := by
  refine ⟨rfl, by decide, by decide, rfl⟩

end KenShenstone
